import Mathlib

/-! Banking system: shared ledger, client access, server audit, shutdown.

A shallow embedding of `bankingsystem.c`.

The shared-memory object created in `main` holds `ACCOUNTS * 2` C `int`s.  The pointer
`accounts` is its start and `credit_sums` lies `ACCOUNTS` ints further on, so the ledger
is one flat run of cells (`Shm`).  A C `int` is a 32-bit two's-complement integer; the
result of `+=` is reduced into that range by `wrapInt`.

`pthread_mutex_lock` / `pthread_mutex_unlock` bracket every access to the cells, so the
critical sections run one at a time: an execution is a list of operations applied in
lock-acquisition order (`run`).  Console output does not touch the ledger and is left out.

The last part models the shutdown path of `main` as a list of statements run against the
process group (`System`).
-/

namespace BankingSystem

/-! ## Constants -/

/-- Number of accounts, `#define ACCOUNTS 12`. -/
def ACCOUNTS : Nat := 12

/-- Credit granted to a negative account, `#define CREDIT_AMOUNT 1000`. -/
def CREDIT_AMOUNT : Int := 1000

/-- Starting balance of every account, `#define INITIAL_BALANCE 1000`. -/
def INITIAL_BALANCE : Int := 1000

/-- Smallest value of a 32-bit C `int`. -/
def INT_MIN : Int := -2147483648

/-- Largest value of a 32-bit C `int`. -/
def INT_MAX : Int := 2147483647

/-- Reduction of a mathematical integer to the 32-bit two's-complement range. -/
def wrapInt (x : Int) : Int := (x + 2147483648) % 4294967296 - 2147483648

/-! ## The shared region -/

/-- The mapped shared-memory object: a run of `int` cells. -/
structure Shm where
  cells : List Int
deriving DecidableEq, Repr

/-- The region has `ACCOUNTS * 2` cells and every cell holds a 32-bit `int`
(`ftruncate(shm_fd, ACCOUNTS * sizeof(int) * 2)`). -/
def Shm.Valid (b : Shm) : Prop :=
  b.cells.length = ACCOUNTS * 2 ∧ ∀ x ∈ b.cells, INT_MIN ≤ x ∧ x ≤ INT_MAX

instance (b : Shm) : Decidable b.Valid := by
  unfold Shm.Valid; infer_instance

/-- Read of cell `k` of the region. -/
def Shm.read (b : Shm) (k : Nat) : Int := b.cells.getD k 0

/-- Store of `v` into cell `k` of the region. -/
def Shm.write (b : Shm) (k : Nat) (v : Int) : Shm := { cells := b.cells.set k v }

/-- The balance `accounts[i]`, with `accounts = (int *)shm_ptr`. -/
def Shm.accounts (b : Shm) (i : Nat) : Int := b.read i

/-- The credit sum `credit_sums[i]`, with
`credit_sums = (int *)(shm_ptr + ACCOUNTS * sizeof(int))`. -/
def Shm.credit_sums (b : Shm) (i : Nat) : Int := b.read (ACCOUNTS + i)

/-- A region given by its twelve balances followed by its twelve credit sums. -/
def ledgerOf (accts credits : List Int) : Shm := { cells := accts ++ credits }

/-! ## Operations -/

/-- The function `clientAccessAccount(account_index, amount)`:
`accounts[account_index] += amount` under the mutex.  An index outside the mapped object
has no defined behaviour (`none`). -/
def clientAccessAccount (b : Shm) (account_index amount : Int) : Option Shm :=
  if 0 ≤ account_index ∧ account_index < (b.cells.length : Int) then
    some (b.write account_index.toNat
      (wrapInt (b.accounts account_index.toNat + amount)))
  else
    none

/-- Body of the `for` loop of `serverReadAccounts` at index `i`:
`if (accounts[i] < 0) { accounts[i] += CREDIT_AMOUNT; credit_sums[i] += CREDIT_AMOUNT; }`. -/
def serverReadBody (b : Shm) (i : Nat) : Shm :=
  if b.accounts i < 0 then
    let b1 := b.write i (wrapInt (b.accounts i + CREDIT_AMOUNT))
    b1.write (ACCOUNTS + i) (wrapInt (b1.credit_sums i + CREDIT_AMOUNT))
  else
    b

/-- The function `serverReadAccounts()`: `for (int i = 0; i < ACCOUNTS; i++)` under the
mutex. -/
def serverReadAccounts (b : Shm) : Shm :=
  (List.range ACCOUNTS).foldl serverReadBody b

/-- Body of the initialisation loop of `main` at index `i`:
`accounts[i] = INITIAL_BALANCE; credit_sums[i] = 0;`. -/
def initBody (b : Shm) (i : Nat) : Shm :=
  (b.write i INITIAL_BALANCE).write (ACCOUNTS + i) 0

/-- The initialisation loop of `main`. -/
def initLedger (b : Shm) : Shm :=
  (List.range ACCOUNTS).foldl initBody b

/-- A freshly created shared-memory object: `ftruncate` extends it with zero bytes. -/
def freshRegion : Shm := { cells := List.replicate (ACCOUNTS * 2) 0 }

/-- The ledger when the workers start. -/
def initial : Shm := initLedger freshRegion

/-! ## The worker loop body -/

/-- The account choice `rand() % ACCOUNTS` (C remainder truncates towards zero). -/
def workerIndex (r : Int) : Int := r.tmod (ACCOUNTS : Int)

/-- The amount choice `(rand() % 200) - 100`. -/
def workerAmount (r : Int) : Int := r.tmod 200 - 100

/-- One iteration of the worker loop, with the two `rand()` results `r1` and `r2`. -/
def workerIteration (b : Shm) (r1 r2 : Int) : Option Shm :=
  clientAccessAccount b (workerIndex r1) (workerAmount r2)

/-! ## Serial executions -/

/-- One critical section. -/
inductive Op where
  | client (account_index amount : Int)
  | server
deriving DecidableEq, Repr

/-- Effect of one critical section on the region. -/
def step (b : Shm) : Op → Option Shm
  | .client account_index amount => clientAccessAccount b account_index amount
  | .server => some (serverReadAccounts b)

/-- Effect of a sequence of critical sections, in lock-acquisition order. -/
def run (b : Shm) : List Op → Option Shm
  | [] => some b
  | op :: rest => (step b op).bind (fun b1 => run b1 rest)

/-- The operation addresses one of the `ACCOUNTS` accounts. -/
def Op.InRange : Op → Prop
  | .client account_index _ => 0 ≤ account_index ∧ account_index < (ACCOUNTS : Int)
  | .server => True

instance (op : Op) : Decidable op.InRange := by
  cases op <;> unfold Op.InRange <;> infer_instance

/-- The operation addresses one of the `ACCOUNTS` accounts with a delta in `[-100, 100]`. -/
def Op.WorkerRange : Op → Prop
  | .client account_index amount =>
      0 ≤ account_index ∧ account_index < (ACCOUNTS : Int) ∧ -100 ≤ amount ∧ amount ≤ 100
  | .server => True

instance (op : Op) : Decidable op.WorkerRange := by
  cases op <;> unfold Op.WorkerRange <;> infer_instance

/-- Number of `serverReadAccounts` calls in a sequence. -/
def serverCount : List Op → Nat
  | [] => 0
  | .client _ _ :: rest => serverCount rest
  | .server :: rest => serverCount rest + 1

/-- Sum of the deltas a sequence applies to account `i`. -/
def deltaSum (i : Nat) : List Op → Int
  | [] => 0
  | .client account_index amount :: rest =>
      (if account_index = (i : Int) then amount else 0) + deltaSum i rest
  | .server :: rest => deltaSum i rest

/-- Sum of the credits that a sequence run from `b` grants to account `i`: one
`CREDIT_AMOUNT` for every audit that finds the balance negative. -/
def creditsGranted (i : Nat) (b : Shm) : List Op → Int
  | [] => 0
  | .client account_index amount :: rest =>
      match clientAccessAccount b account_index amount with
      | none => 0
      | some b1 => creditsGranted i b1 rest
  | .server :: rest =>
      (if b.accounts i < 0 then CREDIT_AMOUNT else 0)
        + creditsGranted i (serverReadAccounts b) rest

/-- The sequence `block` repeated `n` times. -/
def repeatOps (block : List Op) : Nat → List Op
  | 0 => []
  | n + 1 => block ++ repeatOps block n

/-! ## Concrete ledgers and executions -/

/-- The initial ledger after a debit of 1100 on account 3. -/
def overdrawn3 : Shm :=
  ledgerOf [1000, 1000, 1000, -100, 1000, 1000, 1000, 1000, 1000, 1000, 1000, 1000]
    [0, 0, 0, 0, 0, 0, 0, 0, 0, 0, 0, 0]

/-- Account 0 overdrawn while its credit sum is `INT_MAX`. -/
def creditAtLimit : Shm :=
  ledgerOf [-1, 1000, 1000, 1000, 1000, 1000, 1000, 1000, 1000, 1000, 1000, 1000]
    [2147483647, 0, 0, 0, 0, 0, 0, 0, 0, 0, 0, 0]

/-- Account 0 with balance `INT_MAX`. -/
def balanceAtLimit : Shm :=
  ledgerOf [2147483647, 1000, 1000, 1000, 1000, 1000, 1000, 1000, 1000, 1000, 1000, 1000]
    [0, 0, 0, 0, 0, 0, 0, 0, 0, 0, 0, 0]

/-- Account 0 at -100 with credit sum `c`, every other account untouched. -/
def blockState (c : Int) : Shm :=
  ledgerOf [-100, 1000, 1000, 1000, 1000, 1000, 1000, 1000, 1000, 1000, 1000, 1000]
    [c, 0, 0, 0, 0, 0, 0, 0, 0, 0, 0, 0]

/-- Account 0 at -1100 with credit sum `c`, every other account untouched. -/
def debitedState (c : Int) : Shm :=
  ledgerOf [-1100, 1000, 1000, 1000, 1000, 1000, 1000, 1000, 1000, 1000, 1000, 1000]
    [c, 0, 0, 0, 0, 0, 0, 0, 0, 0, 0, 0]

/-- Twenty-one debits of 100 on account 0. -/
def overdraftRun : List Op := List.replicate 21 (Op.client 0 (-100))

/-- Eleven debits of 100 on account 0. -/
def elevenDebits : List Op := List.replicate 11 (Op.client 0 (-100))

/-- Ten debits of 100 on account 0. -/
def tenDebits : List Op := List.replicate 10 (Op.client 0 (-100))

/-- Ten debits of 100 on account 0 followed by an audit. -/
def debitBlock : List Op := tenDebits ++ [Op.server]

/-- Twenty-one debits and an audit, then 2147482 rounds of ten debits and an audit,
then ten more debits: 2147483 audits, each granting a credit to account 0. -/
def creditOverflowRun : List Op :=
  (overdraftRun ++ [Op.server]) ++ (repeatOps debitBlock 2147482 ++ tenDebits)

/-! ## Coordinator shutdown -/

/-- Signals that occur in the program. -/
inductive Signal where
  | SIGINT
  | SIGALRM
  | SIGTERM
deriving DecidableEq, Repr

/-- What a process does when a signal is delivered to it. -/
inductive Disposition where
  | terminate
  | signal_handler
  | alarm_handler
deriving DecidableEq, Repr

/-- Dispositions in force after the two `signal` calls at the top of `main`
(`signal(SIGINT, signal_handler); signal(SIGALRM, alarm_handler);`).  No handler is
installed for `SIGTERM`, whose default action terminates the process.  `fork` hands the
same table to every worker. -/
def disposition : Signal → Disposition
  | .SIGINT => .signal_handler
  | .SIGALRM => .alarm_handler
  | .SIGTERM => .terminate

/-- Life cycle of one process; `waiting` is a coordinator blocked in `wait` on a child
that is still alive. -/
inductive ProcStatus where
  | alive
  | waiting
  | exited (status : Nat)
  | killed (sig : Signal)
deriving DecidableEq, Repr

/-- The two named shared-memory objects, `SHM_NAME` and `MUTEX_NAME`. -/
inductive ShmName where
  | SHM_NAME
  | MUTEX_NAME
deriving DecidableEq, Repr

/-- The process group of the simulation as seen by the coordinator: the ledger, the
`running` flag, the status of the coordinator and of each forked worker not yet reaped,
and counters for what the shutdown path has done. -/
structure System where
  ledger : Shm
  running : Bool
  coordinator : ProcStatus
  workers : List ProcStatus
  reaped : Nat
  mutexDestroyed : Nat
  unmapped : Nat
  unlinked : List ShmName
deriving DecidableEq, Repr

/-- The handler `signal_handler`: clears `running`; its lock/unlock pair leaves the
ledger as it is. -/
def signal_handler (s : System) : System := { s with running := false }

/-- The handler `alarm_handler`: one audit (the alarm is then re-armed). -/
def alarm_handler (s : System) : System := { s with ledger := serverReadAccounts s.ledger }

/-- Status of a worker after delivery of `sig`.  A worker inherits the dispositions of
`main` across `fork`: the default action terminates it; `signal_handler` clears its own
copy of `running`, so its loop `while (running)` ends at the next test and it calls
`exit(EXIT_SUCCESS)`; `alarm_handler` returns into the loop. -/
def deliver (sig : Signal) (p : ProcStatus) : ProcStatus :=
  match p, disposition sig with
  | .alive, .terminate => .killed sig
  | .alive, .signal_handler => .exited 0
  | p, _ => p

/-- The audit `serverReadAccounts` run `n` times in a row. -/
def auditTimes (b : Shm) : Nat → Shm
  | 0 => b
  | n + 1 => auditTimes (serverReadAccounts b) n

/-- Delivery of `sig` to every worker: the statuses change as in `deliver`, and every
live worker whose disposition for `sig` is `alarm_handler` runs one audit on the shared
ledger. -/
def deliverWorkers (sig : Signal) (s : System) : System :=
  { s with
    workers := s.workers.map (deliver sig)
    ledger :=
      if disposition sig = .alarm_handler then
        auditTimes s.ledger (s.workers.filter (fun p => decide (p = .alive))).length
      else s.ledger }

/-- Delivery of `sig` to the coordinator. -/
def deliverCoordinator (sig : Signal) (s : System) : System :=
  match s.coordinator, disposition sig with
  | .alive, .terminate => { s with coordinator := .killed sig }
  | .alive, .signal_handler => signal_handler s
  | .alive, .alarm_handler => alarm_handler s
  | _, _ => s

/-- Statements of `main` after the `while (running) pause();` loop. -/
inductive Stmt where
  | kill0 (sig : Signal)
  | waitLoop
  | mutexDestroy
  | munmap
  | shmUnlink (name : ShmName)
  | ret (status : Nat)
deriving DecidableEq, Repr

/-- The shutdown part of `main`, in program order:
`kill(0, SIGTERM); while (wait(NULL) > 0); pthread_mutex_destroy(mutex); munmap(...);
shm_unlink(SHM_NAME); shm_unlink(MUTEX_NAME); return 0;`. -/
def shutdownSequence : List Stmt :=
  [.kill0 .SIGTERM, .waitLoop, .mutexDestroy, .munmap, .shmUnlink .SHM_NAME,
    .shmUnlink .MUTEX_NAME, .ret 0]

/-- Effect of one statement executed by the coordinator.  The call `kill(0, sig)` sends
`sig` to every process of the caller's process group, the caller included.  The wait loop
collects every terminated child and blocks while a child is still alive. -/
def execStmt (s : System) : Stmt → System
  | .kill0 sig => deliverCoordinator sig (deliverWorkers sig s)
  | .waitLoop =>
      { s with
        reaped := s.reaped + (s.workers.filter (fun p => decide (p ≠ .alive))).length
        workers := s.workers.filter (fun p => decide (p = .alive))
        coordinator := if s.workers.all (fun p => decide (p ≠ .alive)) then .alive
          else .waiting }
  | .mutexDestroy => { s with mutexDestroyed := s.mutexDestroyed + 1 }
  | .munmap => { s with unmapped := s.unmapped + 1 }
  | .shmUnlink name => { s with unlinked := s.unlinked ++ [name] }
  | .ret status => { s with coordinator := .exited status }

/-- Statements run one after the other for as long as the coordinator is alive. -/
def execStmts (s : System) : List Stmt → System
  | [] => s
  | st :: rest => if s.coordinator = .alive then execStmts (execStmt s st) rest else s

/-- The system while `main` sits in `pause()`: four workers forked, nothing released. -/
def pausedSystem (ledger : Shm) : System :=
  { ledger := ledger, running := true, coordinator := .alive,
    workers := List.replicate 4 .alive, reaped := 0, mutexDestroyed := 0, unmapped := 0,
    unlinked := [] }

/-- Reaction of `main` to a signal that interrupts `pause()`: the handler runs, and when
it has cleared `running` the loop ends and the shutdown part follows. -/
def mainOnSignal (sig : Signal) (s : System) : System :=
  let s1 := deliverCoordinator sig s
  if s1.running then s1 else execStmts s1 shutdownSequence

/-! ## Helper lemmas -/

theorem wrapInt_range (x : Int) : INT_MIN ≤ wrapInt x ∧ wrapInt x ≤ INT_MAX := by
  unfold wrapInt INT_MIN INT_MAX
  omega

theorem wrapInt_of_range (x : Int) (h1 : INT_MIN ≤ x) (h2 : x ≤ INT_MAX) : wrapInt x = x := by
  unfold wrapInt
  unfold INT_MIN at h1
  unfold INT_MAX at h2
  omega

theorem wrapInt_add_left (a c : Int) : wrapInt (wrapInt a + c) = wrapInt (a + c) := by
  unfold wrapInt
  omega

theorem wrapInt_add_right (a c : Int) : wrapInt (a + wrapInt c) = wrapInt (a + c) := by
  unfold wrapInt
  omega

theorem write_length (b : Shm) (k : Nat) (v : Int) :
    (b.write k v).cells.length = b.cells.length := by
  simp [Shm.write]

theorem read_write (b : Shm) (k j : Nat) (v : Int) :
    (b.write k v).read j = if j = k ∧ k < b.cells.length then v else b.read j := by
  unfold Shm.write Shm.read
  simp only [List.getD_eq_getElem?_getD, List.getElem?_set]
  by_cases hjk : k = j
  · subst hjk
    by_cases hk : k < b.cells.length
    · simp [hk]
    · simp [hk, List.getElem?_eq_none (Nat.le_of_not_lt hk)]
  · have hne : ¬ j = k := fun h => hjk h.symm
    simp [hjk, hne]

theorem serverReadBody_length (b : Shm) (i : Nat) :
    (serverReadBody b i).cells.length = b.cells.length := by
  unfold serverReadBody
  split <;> simp [write_length]

theorem serverLoop_length (b : Shm) (n : Nat) :
    ((List.range n).foldl serverReadBody b).cells.length = b.cells.length := by
  induction n with
  | zero => simp
  | succ n ih => rw [List.range_succ, List.foldl_append]; simp [serverReadBody_length, ih]

/-- Cells after one iteration of the audit loop. -/
theorem serverReadBody_read (s : Shm) (i k : Nat) :
    (serverReadBody s i).read k =
      if s.read i < 0 then
        (if k = ACCOUNTS + i ∧ ACCOUNTS + i < s.cells.length then
          wrapInt (s.read (ACCOUNTS + i) + CREDIT_AMOUNT)
        else if k = i ∧ i < s.cells.length then wrapInt (s.read i + CREDIT_AMOUNT)
        else s.read k)
      else s.read k := by
  unfold serverReadBody
  simp only [Shm.accounts, Shm.credit_sums]
  have hA : ACCOUNTS = 12 := rfl
  by_cases hneg : s.read i < 0
  · simp only [hneg, if_true]
    rw [read_write, read_write, read_write, write_length]
    have h0 : ¬ (ACCOUNTS + i = i ∧ i < s.cells.length) := by omega
    rw [if_neg h0]
  · simp only [hneg, if_false]

/-- State of every cell after the first `n` iterations of the audit loop. -/
theorem serverLoop_read (b : Shm) (hlen : b.cells.length = ACCOUNTS * 2) (n : Nat)
    (hn : n ≤ ACCOUNTS) (k : Nat) :
    ((List.range n).foldl serverReadBody b).read k =
      if k < n then
        (if b.read k < 0 then wrapInt (b.read k + CREDIT_AMOUNT) else b.read k)
      else if ACCOUNTS ≤ k ∧ k < ACCOUNTS + n then
        (if b.read (k - ACCOUNTS) < 0 then wrapInt (b.read k + CREDIT_AMOUNT) else b.read k)
      else b.read k := by
  induction n generalizing k with
  | zero =>
    have hk : ¬ (ACCOUNTS ≤ k ∧ k < ACCOUNTS + 0) := by omega
    simp only [List.range_zero, List.foldl_nil, Nat.not_lt_zero, if_false, if_neg hk]
  | succ n ih =>
    have hn1 : n ≤ ACCOUNTS := Nat.le_of_succ_le hn
    rw [List.range_succ, List.foldl_append]
    simp only [List.foldl_cons, List.foldl_nil]
    have hl := serverLoop_length b n
    have hA : ACCOUNTS = 12 := rfl
    have hcur : ((List.range n).foldl serverReadBody b).read n = b.read n := by
      rw [ih hn1 n]
      rw [if_neg (Nat.lt_irrefl n), if_neg (by omega)]
    have hcred : ((List.range n).foldl serverReadBody b).read (ACCOUNTS + n)
        = b.read (ACCOUNTS + n) := by
      rw [ih hn1 (ACCOUNTS + n)]
      rw [if_neg (by omega), if_neg (by omega)]
    rw [serverReadBody_read, hcur, hcred, hl, hlen, ih hn1 k]
    by_cases hneg : b.read n < 0
    · simp only [hneg, if_true]
      by_cases h1 : k = ACCOUNTS + n
      · subst h1
        have e : ACCOUNTS + n - ACCOUNTS = n := by omega
        have e1 : ¬ (ACCOUNTS + n < n + 1) := by omega
        have e2 : ACCOUNTS + n < ACCOUNTS * 2 := by omega
        simp [e, hneg, e1, e2]
      · by_cases h2 : k = n
        · subst h2
          have e2 : k < ACCOUNTS * 2 := by omega
          simp [hneg, h1, e2]
        · by_cases h4 : k < n
          · have : k < n + 1 := by omega
            simp [h1, h2, h4, this]
          · have h5 : ¬ k < n + 1 := by omega
            have h6 : (ACCOUNTS ≤ k ∧ k < ACCOUNTS + (n + 1)) ↔ (ACCOUNTS ≤ k ∧ k < ACCOUNTS + n) := by
              omega
            simp [h1, h2, h4, h5, h6]
    · simp only [hneg, if_false]
      by_cases h2 : k = n
      · subst h2
        simp [hneg]
        omega
      · by_cases h1 : k = ACCOUNTS + n
        · subst h1
          have e : ACCOUNTS + n - ACCOUNTS = n := by omega
          have e1 : ¬ (ACCOUNTS + n < n + 1) := by omega
          have e3 : ¬ (ACCOUNTS + n < n) := by omega
          simp [e, hneg, e1, e3]
        · by_cases h4 : k < n
          · have : k < n + 1 := by omega
            simp [h4, this]
          · have h5 : ¬ k < n + 1 := by omega
            have h6 : (ACCOUNTS ≤ k ∧ k < ACCOUNTS + (n + 1)) ↔ (ACCOUNTS ≤ k ∧ k < ACCOUNTS + n) := by
              omega
            simp [h4, h5, h6]

/-- Balance of account `i` after `serverReadAccounts`. -/
theorem serverReadAccounts_accounts (b : Shm) (hlen : b.cells.length = ACCOUNTS * 2)
    (i : Nat) (hi : i < ACCOUNTS) :
    (serverReadAccounts b).accounts i =
      if b.accounts i < 0 then wrapInt (b.accounts i + CREDIT_AMOUNT) else b.accounts i := by
  unfold serverReadAccounts Shm.accounts
  rw [serverLoop_read b hlen ACCOUNTS (Nat.le_refl _) i, if_pos hi]

/-- Credit sum of account `i` after `serverReadAccounts`. -/
theorem serverReadAccounts_credit_sums (b : Shm) (hlen : b.cells.length = ACCOUNTS * 2)
    (i : Nat) (hi : i < ACCOUNTS) :
    (serverReadAccounts b).credit_sums i =
      if b.accounts i < 0 then wrapInt (b.credit_sums i + CREDIT_AMOUNT)
      else b.credit_sums i := by
  unfold serverReadAccounts Shm.accounts Shm.credit_sums
  have hA : ACCOUNTS = 12 := rfl
  rw [serverLoop_read b hlen ACCOUNTS (Nat.le_refl _) (ACCOUNTS + i),
    if_neg (by omega), if_pos (by omega)]
  have e : ACCOUNTS + i - ACCOUNTS = i := by omega
  rw [e]

theorem serverReadAccounts_length (b : Shm) :
    (serverReadAccounts b).cells.length = b.cells.length :=
  serverLoop_length b ACCOUNTS

theorem write_valid (b : Shm) (hb : b.Valid) (k : Nat) (v : Int)
    (hv : INT_MIN ≤ v ∧ v ≤ INT_MAX) : (b.write k v).Valid := by
  refine ⟨by rw [write_length]; exact hb.1, ?_⟩
  intro x hx
  rcases List.mem_or_eq_of_mem_set hx with h | h
  · exact hb.2 x h
  · rw [h]; exact hv

theorem serverReadBody_valid (b : Shm) (hb : b.Valid) (i : Nat) :
    (serverReadBody b i).Valid := by
  unfold serverReadBody
  split
  · exact write_valid _ (write_valid _ hb _ _ (wrapInt_range _)) _ _ (wrapInt_range _)
  · exact hb

theorem serverLoop_valid (l : List Nat) (b : Shm) (hb : b.Valid) :
    (l.foldl serverReadBody b).Valid := by
  induction l generalizing b with
  | nil => exact hb
  | cons i l ih => exact ih _ (serverReadBody_valid b hb i)

theorem serverReadAccounts_valid (b : Shm) (hb : b.Valid) : (serverReadAccounts b).Valid :=
  serverLoop_valid _ b hb

theorem clientAccessAccount_valid (b b1 : Shm) (hb : b.Valid) (account_index amount : Int)
    (h : clientAccessAccount b account_index amount = some b1) : b1.Valid := by
  unfold clientAccessAccount at h
  split at h
  · cases h
    exact write_valid _ hb _ _ (wrapInt_range _)
  · cases h

theorem step_valid (b b1 : Shm) (hb : b.Valid) (op : Op) (h : step b op = some b1) :
    b1.Valid := by
  cases op with
  | client account_index amount => exact clientAccessAccount_valid b b1 hb _ _ h
  | server =>
    simp only [step, Option.some.injEq] at h
    rw [← h]
    exact serverReadAccounts_valid b hb

theorem run_valid (ops : List Op) (b b1 : Shm) (hb : b.Valid) (h : run b ops = some b1) :
    b1.Valid := by
  induction ops generalizing b with
  | nil =>
    simp only [run, Option.some.injEq] at h
    rw [← h]; exact hb
  | cons op rest ih =>
    simp only [run] at h
    cases hs : step b op with
    | none => rw [hs] at h; cases h
    | some b2 =>
      rw [hs] at h
      exact ih b2 (step_valid b b2 hb op hs) h

theorem initial_valid : initial.Valid := by decide

theorem read_range (b : Shm) (hb : b.Valid) (k : Nat) :
    INT_MIN ≤ b.read k ∧ b.read k ≤ INT_MAX := by
  unfold Shm.read
  rw [List.getD_eq_getElem?_getD]
  by_cases hk : k < b.cells.length
  · rw [List.getElem?_eq_getElem hk]
    exact hb.2 _ (List.getElem_mem hk)
  · rw [List.getElem?_eq_none (Nat.le_of_not_lt hk)]
    unfold INT_MIN INT_MAX
    simp

theorem clientAccessAccount_eq (b : Shm) (hlen : b.cells.length = ACCOUNTS * 2) (i : Nat)
    (hi : i < ACCOUNTS * 2) (amount : Int) :
    clientAccessAccount b (i : Int) amount
      = some (b.write i (wrapInt (b.accounts i + amount))) := by
  unfold clientAccessAccount
  have h : 0 ≤ (i : Int) ∧ (i : Int) < (b.cells.length : Int) := by
    rw [hlen]; omega
  rw [if_pos h]
  simp

/-- Effect of `serverReadAccounts` on the balance and the credit sum of one account. -/
theorem serverReadAccounts_effect (b : Shm) (hb : b.Valid) (i : Nat) (hi : i < ACCOUNTS) :
    (b.accounts i < 0 →
      (serverReadAccounts b).accounts i = b.accounts i + CREDIT_AMOUNT ∧
      (serverReadAccounts b).credit_sums i = wrapInt (b.credit_sums i + CREDIT_AMOUNT) ∧
      (b.credit_sums i ≤ INT_MAX - CREDIT_AMOUNT →
        (serverReadAccounts b).credit_sums i = b.credit_sums i + CREDIT_AMOUNT)) ∧
    (0 ≤ b.accounts i →
      (serverReadAccounts b).accounts i = b.accounts i ∧
      (serverReadAccounts b).credit_sums i = b.credit_sums i) := by
  have ha := serverReadAccounts_accounts b hb.1 i hi
  have hc := serverReadAccounts_credit_sums b hb.1 i hi
  have hra := read_range b hb i
  have hrc := read_range b hb (ACCOUNTS + i)
  constructor
  · intro hneg
    rw [if_pos hneg] at ha hc
    refine ⟨?_, hc, ?_⟩
    · rw [ha]
      apply wrapInt_of_range
      · have := hra.1
        unfold Shm.accounts CREDIT_AMOUNT
        unfold INT_MIN at *
        omega
      · unfold Shm.accounts CREDIT_AMOUNT INT_MAX
        unfold Shm.accounts at hneg
        omega
    · intro hle
      rw [hc]
      apply wrapInt_of_range
      · have := hrc.1
        unfold Shm.credit_sums CREDIT_AMOUNT
        unfold INT_MIN at *
        omega
      · unfold CREDIT_AMOUNT at *
        omega
  · intro hpos
    have hnn : ¬ b.accounts i < 0 := by omega
    rw [if_neg hnn] at ha hc
    exact ⟨ha, hc⟩

/-- Effect of `clientAccessAccount` with an in-range index on every account. -/
theorem clientAccessAccount_effect (b : Shm) (hb : b.Valid) (i : Nat) (hi : i < ACCOUNTS)
    (d : Int) :
    ∃ b1, clientAccessAccount b (i : Int) d = some b1 ∧
      b1.accounts i = wrapInt (b.accounts i + d) ∧
      (INT_MIN ≤ b.accounts i + d → b.accounts i + d ≤ INT_MAX →
        b1.accounts i = b.accounts i + d) ∧
      (∀ j, j < ACCOUNTS → j ≠ i → b1.accounts j = b.accounts j) ∧
      (∀ j, j < ACCOUNTS → b1.credit_sums j = b.credit_sums j) := by
  have hA : ACCOUNTS = 12 := rfl
  refine ⟨_, clientAccessAccount_eq b hb.1 i (by omega) d, ?_, ?_, ?_, ?_⟩
  · unfold Shm.accounts
    rw [read_write, if_pos ⟨rfl, by rw [hb.1]; omega⟩]
  · intro h1 h2
    unfold Shm.accounts
    rw [read_write, if_pos ⟨rfl, by rw [hb.1]; omega⟩]
    exact wrapInt_of_range _ h1 h2
  · intro j _ hji
    unfold Shm.accounts
    rw [read_write, if_neg (fun h => hji h.1)]
  · intro j hj
    unfold Shm.credit_sums
    rw [read_write, if_neg (fun h => by omega)]

theorem run_append (ops1 ops2 : List Op) (b : Shm) :
    run b (ops1 ++ ops2) = (run b ops1).bind (fun b1 => run b1 ops2) := by
  induction ops1 generalizing b with
  | nil => simp [run]
  | cons op rest ih =>
    simp only [List.cons_append, run]
    cases step b op with
    | none => simp
    | some b1 => simp [ih]

theorem step_some (b : Shm) (hb : b.Valid) (op : Op) (hop : op.InRange) :
    ∃ b1, step b op = some b1 := by
  cases op with
  | client account_index amount =>
    simp only [Op.InRange] at hop
    simp only [step, clientAccessAccount]
    have hA : ACCOUNTS = 12 := rfl
    have : 0 ≤ account_index ∧ account_index < (b.cells.length : Int) := by
      rw [hb.1]; omega
    rw [if_pos this]
    exact ⟨_, rfl⟩
  | server => exact ⟨_, rfl⟩

theorem run_some (ops : List Op) (b : Shm) (hb : b.Valid) (hops : ∀ op ∈ ops, op.InRange) :
    ∃ b1, run b ops = some b1 := by
  induction ops generalizing b with
  | nil => exact ⟨b, rfl⟩
  | cons op rest ih =>
    obtain ⟨b2, h2⟩ := step_some b hb op (hops op (List.mem_cons_self _ _))
    obtain ⟨b3, h3⟩ := ih b2 (step_valid b b2 hb op h2)
      (fun o ho => hops o (List.mem_cons_of_mem _ ho))
    exact ⟨b3, by simp [run, h2, h3]⟩

theorem Op.inRange_of_workerRange (op : Op) (h : op.WorkerRange) : op.InRange := by
  cases op with
  | client account_index amount => exact ⟨h.1, h.2.1⟩
  | server => trivial

/-- Two `clientAccessAccount` calls in a row on in-range accounts. -/
theorem clientAccessAccount_twice (b : Shm) (hb : b.Valid) (i j : Nat) (hi : i < ACCOUNTS)
    (hj : j < ACCOUNTS) (c d : Int) :
    (clientAccessAccount b (i : Int) c).bind (fun b1 => clientAccessAccount b1 (j : Int) d)
      = some ((b.write i (wrapInt (b.accounts i + c))).write j
          (wrapInt ((if j = i then wrapInt (b.accounts i + c) else b.accounts j) + d))) := by
  have hA : ACCOUNTS = 12 := rfl
  rw [clientAccessAccount_eq b hb.1 i (by omega) c]
  simp only [Option.some_bind]
  rw [clientAccessAccount_eq _ (by rw [write_length]; exact hb.1) j (by omega) d]
  unfold Shm.accounts
  rw [read_write]
  by_cases hji : j = i
  · subst hji
    rw [if_pos ⟨rfl, by rw [hb.1]; omega⟩, if_pos rfl]
  · rw [if_neg (fun h => hji h.1), if_neg hji]

theorem write_write_comm (b : Shm) (k m : Nat) (hkm : k ≠ m) (v w : Int) :
    (b.write k v).write m w = (b.write m w).write k v := by
  unfold Shm.write
  simp only [Shm.mk.injEq]
  exact List.set_comm v w b.cells hkm

theorem write_write_same (b : Shm) (k : Nat) (v w : Int) :
    (b.write k v).write k w = b.write k w := by
  unfold Shm.write
  simp only [Shm.mk.injEq]
  exact List.set_set v w b.cells k

theorem initial_cells (i : Nat) (hi : i < ACCOUNTS) :
    initial.accounts i = INITIAL_BALANCE ∧ initial.credit_sums i = 0 := by
  have h : ∀ k, k < ACCOUNTS →
      initial.accounts k = INITIAL_BALANCE ∧ initial.credit_sums k = 0 := by decide
  exact h i hi

theorem creditsGranted_nonneg (i : Nat) (ops : List Op) (b : Shm) :
    0 ≤ creditsGranted i b ops := by
  induction ops generalizing b with
  | nil => simp [creditsGranted]
  | cons op rest ih =>
    cases op with
    | client account_index amount =>
      simp only [creditsGranted]
      cases clientAccessAccount b account_index amount with
      | none => simp
      | some b1 => exact ih b1
    | server =>
      simp only [creditsGranted]
      have := ih (serverReadAccounts b)
      unfold CREDIT_AMOUNT
      split <;> omega

/-- Balance and credit sum of account `i` after a run, up to reduction to `int`. -/
theorem run_ledger (i : Nat) (hi : i < ACCOUNTS) (ops : List Op) (b : Shm) (hb : b.Valid)
    (hops : ∀ op ∈ ops, op.InRange) :
    ∃ s, run b ops = some s ∧
      s.credit_sums i = wrapInt (b.credit_sums i + creditsGranted i b ops) ∧
      s.accounts i = wrapInt (b.accounts i + deltaSum i ops + creditsGranted i b ops) := by
  induction ops generalizing b with
  | nil =>
    refine ⟨b, rfl, ?_, ?_⟩
    · simp only [creditsGranted, add_zero]
      exact (wrapInt_of_range _ (read_range b hb _).1 (read_range b hb _).2).symm
    · simp only [creditsGranted, deltaSum, add_zero]
      exact (wrapInt_of_range _ (read_range b hb _).1 (read_range b hb _).2).symm
  | cons op rest ih =>
    have hrest : ∀ o ∈ rest, o.InRange := fun o ho => hops o (List.mem_cons_of_mem _ ho)
    have hop := hops op (List.mem_cons_self _ _)
    cases op with
    | client account_index amount =>
      simp only [Op.InRange] at hop
      have hcast : ((account_index.toNat : Nat) : Int) = account_index :=
        Int.toNat_of_nonneg hop.1
      have hk : account_index.toNat < ACCOUNTS := by omega
      obtain ⟨b1, hb1, hacc, _, hfr, hcr⟩ :=
        clientAccessAccount_effect b hb account_index.toNat hk amount
      rw [hcast] at hb1
      obtain ⟨s, hs, hsc, hsa⟩ := ih b1 (clientAccessAccount_valid b b1 hb _ _ hb1) hrest
      refine ⟨s, by simp [run, step, hb1, hs], ?_, ?_⟩
      · rw [hsc, hcr i hi]
        simp only [creditsGranted, hb1]
      · rw [hsa]
        simp only [creditsGranted, hb1, deltaSum]
        by_cases hidx : account_index = (i : Int)
        · have hki : account_index.toNat = i := by omega
          rw [hki] at hacc
          rw [hacc, if_pos hidx]
          unfold wrapInt
          omega
        · have hki : i ≠ account_index.toNat := by omega
          rw [hfr i hi hki, if_neg hidx]
          unfold wrapInt
          omega
    | server =>
      obtain ⟨s, hs, hsc, hsa⟩ := ih (serverReadAccounts b) (serverReadAccounts_valid b hb) hrest
      refine ⟨s, by simp [run, step, hs], ?_, ?_⟩
      · rw [hsc, serverReadAccounts_credit_sums b hb.1 i hi]
        simp only [creditsGranted]
        unfold CREDIT_AMOUNT
        split <;> (unfold wrapInt; omega)
      · rw [hsa, serverReadAccounts_accounts b hb.1 i hi]
        simp only [creditsGranted, deltaSum]
        unfold CREDIT_AMOUNT
        split <;> (unfold wrapInt; omega)

theorem serverCount_append (ops1 ops2 : List Op) :
    serverCount (ops1 ++ ops2) = serverCount ops1 + serverCount ops2 := by
  induction ops1 with
  | nil => simp [serverCount]
  | cons op rest ih =>
    cases op with
    | client account_index amount => simpa [serverCount] using ih
    | server => simpa [serverCount, Nat.add_right_comm] using ih

/-- Effect of one operation on the credit sum of account `i`. -/
theorem step_credit_sums (b : Shm) (hb : b.Valid) (op : Op) (hop : op.InRange) (i : Nat)
    (hi : i < ACCOUNTS) (hcap : b.credit_sums i + CREDIT_AMOUNT * serverCount [op] ≤ INT_MAX) :
    ∃ b1, step b op = some b1 ∧ b.credit_sums i ≤ b1.credit_sums i ∧
      b1.credit_sums i ≤ b.credit_sums i + CREDIT_AMOUNT * serverCount [op] := by
  cases op with
  | client account_index amount =>
    simp only [Op.InRange] at hop
    have hcast : ((account_index.toNat : Nat) : Int) = account_index :=
      Int.toNat_of_nonneg hop.1
    have hk : account_index.toNat < ACCOUNTS := by omega
    obtain ⟨b1, hb1, _, _, _, hcr⟩ :=
      clientAccessAccount_effect b hb account_index.toNat hk amount
    rw [hcast] at hb1
    refine ⟨b1, hb1, ?_, ?_⟩
    · rw [hcr i hi]
    · rw [hcr i hi]; simp [serverCount]
  | server =>
    refine ⟨_, rfl, ?_, ?_⟩
    · have hp := serverReadAccounts_effect b hb i hi
      simp only [serverCount] at hcap
      unfold CREDIT_AMOUNT at hcap hp
      by_cases hneg : b.accounts i < 0
      · rw [(hp.1 hneg).2.2 (by omega)]; omega
      · rw [(hp.2 (by omega)).2]
    · have hp := serverReadAccounts_effect b hb i hi
      simp only [serverCount] at hcap ⊢
      unfold CREDIT_AMOUNT at hcap hp ⊢
      by_cases hneg : b.accounts i < 0
      · rw [(hp.1 hneg).2.2 (by omega)]; omega
      · rw [(hp.2 (by omega)).2]; omega

/-- Credit sum of account `i` after a run with few enough audits. -/
theorem run_credit_sums (i : Nat) (hi : i < ACCOUNTS) (ops : List Op) (b : Shm) (hb : b.Valid)
    (hops : ∀ op ∈ ops, op.InRange)
    (hcap : b.credit_sums i + CREDIT_AMOUNT * serverCount ops ≤ INT_MAX) :
    ∃ s, run b ops = some s ∧ b.credit_sums i ≤ s.credit_sums i ∧
      s.credit_sums i ≤ b.credit_sums i + CREDIT_AMOUNT * serverCount ops := by
  induction ops generalizing b with
  | nil => exact ⟨b, rfl, le_refl _, by simp [serverCount]⟩
  | cons op rest ih =>
    have hrest : ∀ o ∈ rest, o.InRange := fun o ho => hops o (List.mem_cons_of_mem _ ho)
    have hop := hops op (List.mem_cons_self _ _)
    have hsplit : serverCount (op :: rest) = serverCount [op] + serverCount rest :=
      serverCount_append [op] rest
    rw [hsplit] at hcap ⊢
    unfold CREDIT_AMOUNT at hcap ⊢
    push_cast at hcap ⊢
    obtain ⟨b1, hb1, hlo, hhi⟩ := step_credit_sums b hb op hop i hi
      (by unfold CREDIT_AMOUNT; omega)
    unfold CREDIT_AMOUNT at hhi
    obtain ⟨s, hs, hslo, hshi⟩ := ih b1 (step_valid b b1 hb op hb1) hrest
      (by unfold CREDIT_AMOUNT; omega)
    unfold CREDIT_AMOUNT at hshi
    refine ⟨s, by simp [run, hb1, hs], ?_, ?_⟩ <;> omega

theorem clientAccessAccount_head (a d : Int) (rest credits : List Int) :
    clientAccessAccount (ledgerOf (a :: rest) credits) 0 d
      = some (ledgerOf (wrapInt (a + d) :: rest) credits) := by
  simp [clientAccessAccount, ledgerOf, Shm.write, Shm.accounts, Shm.read]
  omega

theorem run_tenDebits (c : Int) : run (blockState c) tenDebits = some (debitedState c) := by
  simp only [tenDebits, List.replicate, run, step, blockState, debitedState,
    clientAccessAccount_head, Option.some_bind]
  norm_num [wrapInt]

theorem step_server_debited (c : Int) :
    step (debitedState c) Op.server = some (blockState (wrapInt (c + CREDIT_AMOUNT))) := by
  have hr : List.range ACCOUNTS = [0, 1, 2, 3, 4, 5, 6, 7, 8, 9, 10, 11] := by decide
  simp only [step, serverReadAccounts, hr, List.foldl_cons, List.foldl_nil]
  simp [serverReadBody, debitedState, blockState, ledgerOf, Shm.write, Shm.accounts,
    Shm.credit_sums, Shm.read, ACCOUNTS]
  norm_num [wrapInt, CREDIT_AMOUNT]

theorem run_debitBlock (c : Int) :
    run (blockState c) debitBlock = some (blockState (wrapInt (c + CREDIT_AMOUNT))) := by
  unfold debitBlock
  rw [run_append, run_tenDebits]
  simp only [Option.some_bind, run, step_server_debited]

theorem run_repeat_debitBlock (n : Nat) (c : Int) (h1 : INT_MIN ≤ c) (h2 : c ≤ INT_MAX) :
    run (blockState c) (repeatOps debitBlock n)
      = some (blockState (wrapInt (c + CREDIT_AMOUNT * n))) := by
  induction n generalizing c with
  | zero =>
    simp only [repeatOps, run, Nat.cast_zero, mul_zero, add_zero]
    rw [wrapInt_of_range c h1 h2]
  | succ n ih =>
    simp only [repeatOps]
    rw [run_append, run_debitBlock]
    simp only [Option.some_bind]
    rw [ih _ (wrapInt_range _).1 (wrapInt_range _).2]
    congr 2
    unfold wrapInt CREDIT_AMOUNT
    push_cast
    omega

theorem mem_repeatOps (block : List Op) (n : Nat) (op : Op) (h : op ∈ repeatOps block n) :
    op ∈ block := by
  induction n with
  | zero => simp [repeatOps] at h
  | succ n ih =>
    simp only [repeatOps, List.mem_append] at h
    rcases h with h | h
    · exact h
    · exact ih h

set_option maxRecDepth 100000 in
theorem run_overdraft_then_audit :
    run initial (overdraftRun ++ [Op.server]) = some (blockState 1000) := by
  decide

theorem wrapInt_blocks : wrapInt (1000 + CREDIT_AMOUNT * ((2147482 : Nat) : Int)) = 2147483000 := by
  norm_num [wrapInt, CREDIT_AMOUNT]

theorem run_blocks :
    run (blockState 1000) (repeatOps debitBlock 2147482) = some (blockState 2147483000) := by
  have h := run_repeat_debitBlock 2147482 1000 (by decide) (by decide)
  rw [wrapInt_blocks] at h
  exact h

theorem run_append_of_run (ops1 ops2 : List Op) (b b1 : Shm) (h : run b ops1 = some b1) :
    run b (ops1 ++ ops2) = run b1 ops2 := by
  rw [run_append, h, Option.some_bind]

theorem serverCount_repeatOps (block : List Op) (n : Nat) :
    serverCount (repeatOps block n) = n * serverCount block := by
  induction n with
  | zero => rw [Nat.zero_mul]; rfl
  | succ n ih =>
    have e : repeatOps block (n + 1) = block ++ repeatOps block n := rfl
    rw [e, serverCount_append, ih, Nat.succ_mul, Nat.add_comm]

theorem run_creditOverflowRun :
    run initial creditOverflowRun = some (debitedState 2147483000) :=
  (run_append_of_run (overdraftRun ++ [Op.server]) (repeatOps debitBlock 2147482 ++ tenDebits)
      initial (blockState 1000) run_overdraft_then_audit).trans
    ((run_append_of_run (repeatOps debitBlock 2147482) tenDebits (blockState 1000)
      (blockState 2147483000) run_blocks).trans (run_tenDebits 2147483000))

/-! ## The claims -/

/-- Claim C1, as amended.  For every ledger state `s` reached from the initial ledger by a
finite sequence of `clientAccessAccount` calls (index in `[0,12)`, delta in `[-100,100]`)
and `serverReadAccounts` calls, a balance is non-negative right after a further
`serverReadAccounts` call exactly when it was at least `-CREDIT_AMOUNT` right before it;
so every balance is non-negative after the audit provided none was below -1000 when the
audit began. -/
theorem post_audit_nonneg_iff (ops : List Op) (hops : ∀ op ∈ ops, op.WorkerRange) :
    ∃ s, run initial ops = some s ∧
      (∀ i, i < ACCOUNTS →
        (0 ≤ (serverReadAccounts s).accounts i ↔ -CREDIT_AMOUNT ≤ s.accounts i)) ∧
      ((∀ i, i < ACCOUNTS → -CREDIT_AMOUNT ≤ s.accounts i) →
        ∀ i, i < ACCOUNTS → 0 ≤ (serverReadAccounts s).accounts i) := by
  obtain ⟨s, hs⟩ := run_some ops initial initial_valid
    (fun op h => Op.inRange_of_workerRange op (hops op h))
  have hv := run_valid ops initial s initial_valid hs
  have key : ∀ i, i < ACCOUNTS →
      (0 ≤ (serverReadAccounts s).accounts i ↔ -CREDIT_AMOUNT ≤ s.accounts i) := by
    intro i hi
    have hp := serverReadAccounts_effect s hv i hi
    by_cases hneg : s.accounts i < 0
    · rw [(hp.1 hneg).1]
      unfold CREDIT_AMOUNT
      omega
    · rw [(hp.2 (by omega)).1]
      unfold CREDIT_AMOUNT
      omega
  exact ⟨s, hs, key, fun h i hi => (key i hi).2 (h i hi)⟩

set_option maxRecDepth 100000 in
/-- Instances of `post_audit_nonneg_iff` on both sides of the threshold.  After eleven
debits of 100 account 0 stands at -100, which is not below -1000: the audit lifts it to
900 and every balance is non-negative afterwards.  After twenty-one debits of 100 it
stands at -1100, below -1000: the balance after the audit is still negative. -/
theorem post_audit_nonneg_iff_witness :
    (∃ s, run initial elevenDebits = some s ∧ s.accounts 0 = -100 ∧
      (serverReadAccounts s).accounts 0 = 900 ∧
      (∀ i, i < ACCOUNTS → 0 ≤ (serverReadAccounts s).accounts i)) ∧
    (∃ s, run initial overdraftRun = some s ∧ s.accounts 0 = -1100 ∧
      ¬ 0 ≤ (serverReadAccounts s).accounts 0) := by
  constructor
  · obtain ⟨s, hs, _, hall⟩ := post_audit_nonneg_iff elevenDebits (by decide)
    have hrun : run initial elevenDebits = some (blockState 0) := by decide
    have hs0 : s = blockState 0 := Option.some.inj (hs.symm.trans hrun)
    subst hs0
    exact ⟨_, hrun, by decide, by decide, hall (by decide)⟩
  · obtain ⟨s, hs, hiff, _⟩ := post_audit_nonneg_iff overdraftRun (by decide)
    have hrun : run initial overdraftRun = some (debitedState 0) := by decide
    have hs0 : s = debitedState 0 := Option.some.inj (hs.symm.trans hrun)
    subst hs0
    exact ⟨_, hrun, by decide, fun h => absurd ((hiff 0 (by decide)).1 h) (by decide)⟩

set_option maxRecDepth 100000 in
/-- Claim C1 fails as stated: twenty-one debits of 100 on account 0 (each within the
allowed index and delta range) take its balance from 1000 to -1100, and the state right
after the next `serverReadAccounts` call has balance -100 on account 0. -/
theorem audit_leaves_negative_balance :
    (∀ op ∈ overdraftRun, op.WorkerRange) ∧
      (run initial overdraftRun).map (fun s => s.accounts 0) = some (-1100) ∧
      (run initial overdraftRun).map (fun s => (serverReadAccounts s).accounts 0)
        = some (-100) := by
  decide

/-- Claim C2, as amended.  For every valid ledger state and every index `i` in `[0,12)`:
if `accounts[i] < 0` before `serverReadAccounts`, then afterwards the balance is the old
balance plus 1000 and the credit sum is the old credit sum plus 1000 reduced to the `int`
range, which is exactly the old credit sum plus 1000 whenever the old credit sum is at
most `INT_MAX - 1000`; if `accounts[i] >= 0`, balance and credit sum are unchanged. -/
theorem audit_pointwise (b : Shm) (hb : b.Valid) (i : Nat) (hi : i < ACCOUNTS) :
    (b.accounts i < 0 →
      (serverReadAccounts b).accounts i = b.accounts i + CREDIT_AMOUNT ∧
      (serverReadAccounts b).credit_sums i = wrapInt (b.credit_sums i + CREDIT_AMOUNT) ∧
      (b.credit_sums i ≤ INT_MAX - CREDIT_AMOUNT →
        (serverReadAccounts b).credit_sums i = b.credit_sums i + CREDIT_AMOUNT)) ∧
    (0 ≤ b.accounts i →
      (serverReadAccounts b).accounts i = b.accounts i ∧
      (serverReadAccounts b).credit_sums i = b.credit_sums i) :=
  serverReadAccounts_effect b hb i hi

/-- Instance of `audit_pointwise` on the ledger with account 3 at -100. -/
theorem audit_pointwise_witness :
    overdrawn3.Valid ∧ overdrawn3.accounts 3 < 0 ∧
      (serverReadAccounts overdrawn3).accounts 3 = 900 ∧
      (serverReadAccounts overdrawn3).credit_sums 3 = 1000 := by
  have h := (audit_pointwise overdrawn3 (by decide) 3 (by decide)).1 (by decide)
  refine ⟨by decide, by decide, ?_, ?_⟩
  · rw [h.1]; decide
  · rw [h.2.2 (by decide)]; decide

/-- Claim C2 fails as stated: with account 0 overdrawn and its credit sum at `INT_MAX`,
the credit sum after `serverReadAccounts` is -2147482649, not the old value plus 1000. -/
theorem audit_credit_overflow :
    creditAtLimit.Valid ∧ creditAtLimit.accounts 0 < 0 ∧
      creditAtLimit.credit_sums 0 = 2147483647 ∧
      (serverReadAccounts creditAtLimit).credit_sums 0 = -2147482649 ∧
      (serverReadAccounts creditAtLimit).credit_sums 0
        ≠ creditAtLimit.credit_sums 0 + 1000 := by
  decide

/-- Claim C3, as amended.  For every valid ledger state, every index `i` in `[0,12)` and
every delta `d`, `clientAccessAccount(i, d)` succeeds; afterwards `accounts[i]` is the old
balance plus `d` reduced to the `int` range, which is exactly the old balance plus `d`
(negative or not, no clamping) whenever that sum lies within `[INT_MIN, INT_MAX]`; every
other balance and every credit sum is unchanged. -/
theorem client_touches_one_account (b : Shm) (hb : b.Valid) (i : Nat) (hi : i < ACCOUNTS)
    (d : Int) :
    ∃ b1, clientAccessAccount b (i : Int) d = some b1 ∧
      b1.accounts i = wrapInt (b.accounts i + d) ∧
      (INT_MIN ≤ b.accounts i + d → b.accounts i + d ≤ INT_MAX →
        b1.accounts i = b.accounts i + d) ∧
      (∀ j, j < ACCOUNTS → j ≠ i → b1.accounts j = b.accounts j) ∧
      (∀ j, j < ACCOUNTS → b1.credit_sums j = b.credit_sums j) :=
  clientAccessAccount_effect b hb i hi d

/-- Instance of `client_touches_one_account`: a debit of 1100 on account 3 of the initial
ledger. -/
theorem client_touches_one_account_witness :
    ∃ b1, clientAccessAccount initial 3 (-1100) = some b1 ∧ b1.accounts 3 = -100 ∧
      b1.accounts 4 = 1000 ∧ b1.credit_sums 3 = 0 := by
  obtain ⟨b1, h, _, hex, hfr, hcr⟩ := client_touches_one_account initial initial_valid 3
    (by decide) (-1100)
  refine ⟨b1, h, ?_, ?_, ?_⟩
  · rw [hex (by decide) (by decide)]; decide
  · rw [hfr 4 (by decide) (by decide)]; decide
  · rw [hcr 3 (by decide)]; decide

/-- Claim C3 fails as stated: `clientAccessAccount(0, 2147483647)` on the initial ledger
leaves balance -2147482649 on account 0, not 1000 + 2147483647; and with account 0 at
`INT_MAX` the call `clientAccessAccount(0, 100)` leaves balance -2147483549, not
2147483647 + 100. -/
theorem client_balance_overflow :
    initial.Valid ∧ initial.accounts 0 = 1000 ∧
      (clientAccessAccount initial 0 2147483647).map (fun b1 => b1.accounts 0)
        = some (-2147482649) ∧
      (clientAccessAccount initial 0 2147483647).map (fun b1 => b1.accounts 0)
        ≠ some (initial.accounts 0 + 2147483647) ∧
      balanceAtLimit.Valid ∧ balanceAtLimit.accounts 0 = 2147483647 ∧
      (clientAccessAccount balanceAtLimit 0 100).map (fun b1 => b1.accounts 0)
        = some (-2147483549) ∧
      (clientAccessAccount balanceAtLimit 0 100).map (fun b1 => b1.accounts 0)
        ≠ some (balanceAtLimit.accounts 0 + 100) := by
  decide

/-- Claim C4, as amended.  Along every finite sequence of in-range `clientAccessAccount`
and `serverReadAccounts` operations from the initial ledger that contains at most
2147483 `serverReadAccounts` calls, for every index `i` the credit sum `credit_sums[i]`
is non-negative and does not decrease from one step to the next: for every prefix `pre`
and next operation `op`, the state `s` after `pre` and the state `s1` after `op` satisfy
`0 ≤ s.credit_sums i ≤ s1.credit_sums i`. -/
theorem credit_sums_monotone (pre : List Op) (op : Op) (hops : ∀ o ∈ pre ++ [op], o.InRange)
    (hcount : serverCount (pre ++ [op]) ≤ 2147483) (i : Nat) (hi : i < ACCOUNTS) :
    ∃ s s1, run initial pre = some s ∧ step s op = some s1 ∧
      0 ≤ s.credit_sums i ∧ s.credit_sums i ≤ s1.credit_sums i := by
  rw [serverCount_append] at hcount
  have hpre : ∀ o ∈ pre, o.InRange := fun o ho => hops o (List.mem_append_left _ ho)
  have hop : op.InRange := hops op (List.mem_append_right _ (List.mem_singleton_self op))
  have h0 := (initial_cells i hi).2
  obtain ⟨s, hs, hlo, hhi⟩ := run_credit_sums i hi pre initial initial_valid hpre
    (by rw [h0]; unfold CREDIT_AMOUNT INT_MAX; omega)
  rw [h0] at hlo hhi
  unfold CREDIT_AMOUNT at hhi
  obtain ⟨s1, hs1, hmono, _⟩ := step_credit_sums s (run_valid pre initial s initial_valid hs)
    op hop i hi (by unfold CREDIT_AMOUNT INT_MAX; omega)
  exact ⟨s, s1, hs, hs1, hlo, hmono⟩

/-- Instance of `credit_sums_monotone`: a debit of 1100 on account 3, then an audit. -/
theorem credit_sums_monotone_witness :
    ∃ s s1, run initial [Op.client 3 (-1100)] = some s ∧ step s Op.server = some s1 ∧
      0 ≤ s.credit_sums 3 ∧ s.credit_sums 3 ≤ s1.credit_sums 3 :=
  credit_sums_monotone [Op.client 3 (-1100)] Op.server (by decide) (by decide) 3 (by decide)

/-- Claim C4 fails as stated: along `creditOverflowRun` (debits of 100 on account 0 and
audits only) the credit sum of account 0 reaches 2147483000, and the next
`serverReadAccounts` call, the 2147484th of the run, takes it down to -2147483296. -/
theorem credit_sum_decreases :
    (∀ op ∈ creditOverflowRun ++ [Op.server], op.WorkerRange) ∧
      serverCount (creditOverflowRun ++ [Op.server]) = 2147484 ∧
      (run initial creditOverflowRun).map (fun s => s.credit_sums 0) = some 2147483000 ∧
      (run initial (creditOverflowRun ++ [Op.server])).map (fun s => s.credit_sums 0)
        = some (-2147483296) := by
  refine ⟨?_, ?_, ?_, ?_⟩
  · intro op hop
    have hblock : ∀ o ∈ debitBlock, o.WorkerRange := by decide
    have hover : ∀ o ∈ overdraftRun ++ [Op.server], o.WorkerRange := by decide
    have hten : ∀ o ∈ tenDebits, o.WorkerRange := by decide
    unfold creditOverflowRun at hop
    simp only [List.mem_append] at hop
    rcases hop with ((h | h) | h | h) | h
    · exact hover op (List.mem_append_left _ h)
    · exact hover op (List.mem_append_right _ h)
    · exact hblock op (mem_repeatOps debitBlock _ op h)
    · exact hten op h
    · exact hover op (List.mem_append_right _ h)
  · have e : creditOverflowRun
        = (overdraftRun ++ [Op.server]) ++ (repeatOps debitBlock 2147482 ++ tenDebits) := rfl
    have h1 : serverCount (overdraftRun ++ [Op.server]) = 1 := by decide
    have h2 : serverCount debitBlock = 1 := by decide
    have h3 : serverCount tenDebits = 0 := by decide
    have h4 : serverCount [Op.server] = 1 := by decide
    rw [serverCount_append, e, serverCount_append (overdraftRun ++ [Op.server]),
      serverCount_append (repeatOps debitBlock 2147482), serverCount_repeatOps, h1, h2, h3, h4]
  · rw [run_creditOverflowRun]
    decide
  · rw [run_append_of_run creditOverflowRun [Op.server] initial _ run_creditOverflowRun]
    have h : run (debitedState 2147483000) [Op.server]
        = some (blockState (wrapInt (2147483000 + CREDIT_AMOUNT))) := by
      simp only [run, step_server_debited, Option.some_bind]
    rw [h]
    decide

/-- Claim C5, as amended.  For every finite sequence of in-range `clientAccessAccount` and
`serverReadAccounts` operations run one at a time from the initial ledger and every
index `i`: the final credit sum is the sum of the credits granted to `i` reduced to the
`int` range, and the final balance is 1000 plus the sum of the deltas applied to `i` plus
the sum of the credits granted to `i`, reduced to the `int` range.  Whenever these two
sums lie within the `int` range the reduction is the identity: the final credit sum is
exactly the sum of the credits granted and the final balance is exactly 1000 plus the
deltas plus the final credit sum. -/
theorem no_lost_updates (ops : List Op) (hops : ∀ op ∈ ops, op.InRange) (i : Nat)
    (hi : i < ACCOUNTS) :
    ∃ s, run initial ops = some s ∧
      s.credit_sums i = wrapInt (creditsGranted i initial ops) ∧
      s.accounts i
        = wrapInt (INITIAL_BALANCE + deltaSum i ops + creditsGranted i initial ops) ∧
      (creditsGranted i initial ops ≤ INT_MAX →
        INT_MIN ≤ INITIAL_BALANCE + deltaSum i ops + creditsGranted i initial ops →
        INITIAL_BALANCE + deltaSum i ops + creditsGranted i initial ops ≤ INT_MAX →
        s.credit_sums i = creditsGranted i initial ops ∧
        s.accounts i = INITIAL_BALANCE + deltaSum i ops + s.credit_sums i) := by
  obtain ⟨s, hs, hsc, hsa⟩ := run_ledger i hi ops initial initial_valid hops
  rw [(initial_cells i hi).1] at hsa
  rw [(initial_cells i hi).2, zero_add] at hsc
  refine ⟨s, hs, hsc, hsa, ?_⟩
  intro h1 h2 h3
  have h0 := creditsGranted_nonneg i ops initial
  have hc : s.credit_sums i = creditsGranted i initial ops := by
    rw [hsc]
    exact wrapInt_of_range _ (by unfold INT_MIN; omega) h1
  refine ⟨hc, ?_⟩
  rw [hsa, hc]
  exact wrapInt_of_range _ h2 h3

/-- Instance of `no_lost_updates` on the overdraft scenario on account 3. -/
theorem no_lost_updates_witness :
    ∃ s, run initial [Op.client 3 (-1100), Op.server, Op.client 3 (-1100), Op.server]
        = some s ∧
      s.credit_sums 3 = 2000 ∧ s.accounts 3 = 1000 + (-2200) + 2000 := by
  obtain ⟨s, hs, _, _, hex⟩ := no_lost_updates
    [Op.client 3 (-1100), Op.server, Op.client 3 (-1100), Op.server] (by decide) 3 (by decide)
  have h := hex (by decide) (by decide) (by decide)
  refine ⟨s, hs, ?_, ?_⟩
  · rw [h.1]; decide
  · rw [h.2, h.1]; decide

/-- Claim C5 fails as stated: after the single operation
`clientAccessAccount(0, 2147483647)` the balance of account 0 is -2147482649 with credit
sum 0, while 1000 plus the deltas plus the credits is 2147484647. -/
theorem lost_update_on_overflow :
    (∀ op ∈ [Op.client 0 2147483647], op.InRange) ∧
      (run initial [Op.client 0 2147483647]).map (fun s => (s.accounts 0, s.credit_sums 0))
        = some (-2147482649, 0) ∧
      INITIAL_BALANCE + deltaSum 0 [Op.client 0 2147483647] + 0 = 2147484647 := by
  decide

/-- Claim C6, as amended.  For every valid ledger state, all indices `i`, `j` in `[0,12)`
and all deltas `c`, `d`, `clientAccessAccount(i, c)` followed by
`clientAccessAccount(j, d)` yields the same ledger state as the two calls in the other
order.  In particular +50 and -30 on the same index give the same state in either order,
whose balance is the old balance plus 20 reduced to the `int` range: a net change of
exactly +20 whenever the old balance is at most `INT_MAX - 20`. -/
theorem client_order_independent (b : Shm) (hb : b.Valid) (i j : Nat) (hi : i < ACCOUNTS)
    (hj : j < ACCOUNTS) (c d : Int) :
    (∃ s,
      (clientAccessAccount b (i : Int) c).bind
          (fun b1 => clientAccessAccount b1 (j : Int) d) = some s ∧
      (clientAccessAccount b (j : Int) d).bind
          (fun b1 => clientAccessAccount b1 (i : Int) c) = some s) ∧
    (∃ t,
      (clientAccessAccount b (i : Int) 50).bind
          (fun b1 => clientAccessAccount b1 (i : Int) (-30)) = some t ∧
      (clientAccessAccount b (i : Int) (-30)).bind
          (fun b1 => clientAccessAccount b1 (i : Int) 50) = some t ∧
      t.accounts i = wrapInt (b.accounts i + 20) ∧
      (b.accounts i + 20 ≤ INT_MAX → t.accounts i = b.accounts i + 20)) := by
  have hA : ACCOUNTS = 12 := rfl
  constructor
  · refine ⟨_, clientAccessAccount_twice b hb i j hi hj c d, ?_⟩
    rw [clientAccessAccount_twice b hb j i hj hi d c]
    by_cases hji : j = i
    · subst hji
      simp only [if_true, write_write_same, wrapInt_add_left]
      rw [add_right_comm]
    · have hij : ¬ i = j := fun h => hji h.symm
      simp only [hji, hij, if_false]
      rw [write_write_comm _ _ _ hji]
  · refine ⟨_, clientAccessAccount_twice b hb i i hi hi 50 (-30), ?_, ?_, ?_⟩
    · rw [clientAccessAccount_twice b hb i i hi hi (-30) 50]
      simp only [if_true, write_write_same, wrapInt_add_left]
      rw [add_right_comm]
    · simp only [if_true, write_write_same, wrapInt_add_left]
      unfold Shm.accounts
      rw [read_write, if_pos ⟨rfl, by rw [hb.1]; omega⟩]
      congr 1
      omega
    · intro hle
      simp only [if_true, write_write_same, wrapInt_add_left]
      unfold Shm.accounts
      rw [read_write, if_pos ⟨rfl, by rw [hb.1]; omega⟩]
      have hr := (read_range b hb i).1
      have e : b.read i + 50 + -30 = b.read i + 20 := by omega
      rw [e]
      apply wrapInt_of_range
      · unfold INT_MIN at *; omega
      · exact hle

/-- Instance of `client_order_independent` on the initial ledger with accounts 3 and 5. -/
theorem client_order_independent_witness :
    (∃ s,
      (clientAccessAccount initial ((3 : Nat) : Int) 50).bind
          (fun b1 => clientAccessAccount b1 ((5 : Nat) : Int) (-30)) = some s ∧
      (clientAccessAccount initial ((5 : Nat) : Int) (-30)).bind
          (fun b1 => clientAccessAccount b1 ((3 : Nat) : Int) 50) = some s) ∧
    (∃ t,
      (clientAccessAccount initial ((3 : Nat) : Int) 50).bind
          (fun b1 => clientAccessAccount b1 ((3 : Nat) : Int) (-30)) = some t ∧
      (clientAccessAccount initial ((3 : Nat) : Int) (-30)).bind
          (fun b1 => clientAccessAccount b1 ((3 : Nat) : Int) 50) = some t ∧
      t.accounts 3 = wrapInt (initial.accounts 3 + 20) ∧
      (initial.accounts 3 + 20 ≤ INT_MAX → t.accounts 3 = initial.accounts 3 + 20)) :=
  client_order_independent initial initial_valid 3 5 (by decide) (by decide) 50 (-30)

/-- Claim C6 fails as stated in its last part: with account 0 at `INT_MAX`, +50 and -30
give balance -2147483629 in either order, which is not a net change of +20. -/
theorem net_change_overflow :
    balanceAtLimit.Valid ∧ balanceAtLimit.accounts 0 = 2147483647 ∧
      ((clientAccessAccount balanceAtLimit 0 50).bind
        (fun b1 => clientAccessAccount b1 0 (-30))).map (fun s => s.accounts 0)
        = some (-2147483629) ∧
      ((clientAccessAccount balanceAtLimit 0 (-30)).bind
        (fun b1 => clientAccessAccount b1 0 50)).map (fun s => s.accounts 0)
        = some (-2147483629) ∧
      (-2147483629 : Int) - balanceAtLimit.accounts 0 ≠ 20 := by
  decide

/-- Claim C7.  From the initial ledger (twelve accounts at 1000, credit sums 0):
after `clientAccessAccount(3, -1100)` account 3 has balance -100 and credit sum 0; after
the next `serverReadAccounts` balance 900 and credit sum 1000; after a second
`clientAccessAccount(3, -1100)` balance -200; after the next `serverReadAccounts` balance
800 and credit sum 2000; every other account stays at 1000 with credit sum 0 throughout. -/
theorem overdraft_scenario :
    ∃ s1 s2 s3 s4,
      clientAccessAccount initial 3 (-1100) = some s1 ∧
      serverReadAccounts s1 = s2 ∧
      clientAccessAccount s2 3 (-1100) = some s3 ∧
      serverReadAccounts s3 = s4 ∧
      (∀ j, j < ACCOUNTS → initial.accounts j = 1000 ∧ initial.credit_sums j = 0) ∧
      s1.accounts 3 = -100 ∧ s1.credit_sums 3 = 0 ∧
      s2.accounts 3 = 900 ∧ s2.credit_sums 3 = 1000 ∧
      s3.accounts 3 = -200 ∧
      s4.accounts 3 = 800 ∧ s4.credit_sums 3 = 2000 ∧
      (∀ s ∈ [s1, s2, s3, s4], ∀ j, j < ACCOUNTS → j ≠ 3 →
        s.accounts j = 1000 ∧ s.credit_sums j = 0) := by
  refine ⟨_, _, _, _, rfl, rfl, rfl, rfl, ?_⟩
  decide

/-- Claim C8, evaluated on the code.  When `SIGINT` reaches the coordinator paused with
four workers, `signal_handler` clears `running` and the shutdown part runs; its first
statement `kill(0, SIGTERM)` signals the whole process group, and since no handler for
`SIGTERM` is installed the coordinator itself is terminated by it: no worker is reaped,
the mutex is not destroyed, the region is not unmapped, no name is unlinked and the
coordinator does not exit with status 0. -/
theorem shutdown_kills_coordinator :
    (mainOnSignal .SIGINT (pausedSystem initial)).running = false ∧
    (mainOnSignal .SIGINT (pausedSystem initial)).coordinator = .killed .SIGTERM ∧
    (mainOnSignal .SIGINT (pausedSystem initial)).workers = List.replicate 4 (.killed .SIGTERM) ∧
    (mainOnSignal .SIGINT (pausedSystem initial)).reaped = 0 ∧
    (mainOnSignal .SIGINT (pausedSystem initial)).mutexDestroyed = 0 ∧
    (mainOnSignal .SIGINT (pausedSystem initial)).unmapped = 0 ∧
    (mainOnSignal .SIGINT (pausedSystem initial)).unlinked = [] := by
  decide

/-- Claim C9.  For every value `r1` that `rand()` can return (between 0 and `RAND_MAX`)
the worker's account index `r1 % 12` lies in `[0,12)`; the `clientAccessAccount` call of
the worker iteration is therefore defined on every valid ledger, writes only the balance
of that account, and leaves every other balance, every credit sum and the size of the
region as they were. -/
theorem worker_index_in_table (RAND_MAX r1 r2 : Int) (b : Shm) (hb : b.Valid)
    (h1 : 0 ≤ r1) (_h2 : r1 ≤ RAND_MAX) (_h3 : 0 ≤ r2) (_h4 : r2 ≤ RAND_MAX) :
    0 ≤ workerIndex r1 ∧ workerIndex r1 < (ACCOUNTS : Int) ∧
      ∃ b1, workerIteration b r1 r2 = some b1 ∧
        b1.cells.length = b.cells.length ∧
        b1.accounts (workerIndex r1).toNat
          = wrapInt (b.accounts (workerIndex r1).toNat + workerAmount r2) ∧
        (∀ j, j < ACCOUNTS → j ≠ (workerIndex r1).toNat → b1.accounts j = b.accounts j) ∧
        (∀ j, j < ACCOUNTS → b1.credit_sums j = b.credit_sums j) := by
  have hA : (ACCOUNTS : Int) = 12 := rfl
  have hlo : 0 ≤ workerIndex r1 := by
    unfold workerIndex; rw [hA, Int.tmod_eq_emod h1 (by omega)]; omega
  have hhi : workerIndex r1 < (ACCOUNTS : Int) := by
    unfold workerIndex; rw [hA, Int.tmod_eq_emod h1 (by omega)]; omega
  refine ⟨hlo, hhi, ?_⟩
  have hnat : (workerIndex r1).toNat < ACCOUNTS := by
    have : ((workerIndex r1).toNat : Int) = workerIndex r1 := Int.toNat_of_nonneg hlo
    omega
  obtain ⟨b1, hb1, hv, _, hfr, hcr⟩ :=
    clientAccessAccount_effect b hb (workerIndex r1).toNat hnat (workerAmount r2)
  rw [Int.toNat_of_nonneg hlo] at hb1
  refine ⟨b1, hb1, ?_, hv, hfr, hcr⟩
  unfold clientAccessAccount at hb1
  split at hb1
  · cases hb1
    rw [write_length]
  · cases hb1

/-- Instance of `worker_index_in_table` with `RAND_MAX = 2147483647` and
`r1 = RAND_MAX`. -/
theorem worker_index_in_table_witness :
    0 ≤ workerIndex 2147483647 ∧ workerIndex 2147483647 < (ACCOUNTS : Int) ∧
      ∃ b1, workerIteration initial 2147483647 0 = some b1 ∧
        b1.cells.length = initial.cells.length ∧
        b1.accounts (workerIndex 2147483647).toNat
          = wrapInt (initial.accounts (workerIndex 2147483647).toNat + workerAmount 0) ∧
        (∀ j, j < ACCOUNTS → j ≠ (workerIndex 2147483647).toNat →
          b1.accounts j = initial.accounts j) ∧
        (∀ j, j < ACCOUNTS → b1.credit_sums j = initial.credit_sums j) :=
  worker_index_in_table 2147483647 2147483647 0 initial initial_valid (by decide) (by decide)
    (by decide) (by decide)

/-- Claim C10, evaluated on the code.  For every `r ≥ 0` the amount `(r % 200) - 100` lies
between -100 and 99; every integer from -100 to 99 is generated by some `r` in
`[0, 199]`; no `r` generates 100, and the largest amount, reached at `r = 199`, is 99. -/
theorem worker_amount_never_100 :
    (∀ r : Int, 0 ≤ r → -100 ≤ workerAmount r ∧ workerAmount r ≤ 99) ∧
    (∀ d : Int, -100 ≤ d → d ≤ 99 → ∃ r : Int, 0 ≤ r ∧ r ≤ 199 ∧ workerAmount r = d) ∧
    (∀ r : Int, workerAmount r ≠ 100) ∧
    workerAmount 199 = 99 := by
  refine ⟨?_, ?_, ?_, by decide⟩
  · intro r hr
    unfold workerAmount
    rw [Int.tmod_eq_emod hr (by omega)]
    omega
  · intro d h1 h2
    refine ⟨d + 100, by omega, by omega, ?_⟩
    unfold workerAmount
    rw [Int.tmod_eq_emod (by omega) (by omega)]
    omega
  · intro r
    unfold workerAmount
    have := Int.tmod_lt_of_pos r (show (0 : Int) < 200 by omega)
    omega

end BankingSystem
